import Mathlib

/-!
Verification of the clipboard-history core: the bounded MRU history store
(`src/history.rs`), the fuzzy-ranked search (`src/fuzzy.rs`) and the
persistence codec (`src/storage.rs`).

Machine integers (`u64` ids, `usize` sizes) are modelled as `Nat`: the only
arithmetic performed on them is `next_id += 1`, whose `u64` overflow is
unreachable in any execution the claims range over.  Timestamps
(`chrono::DateTime<Utc>`) are modelled as an abstract instant `Nat`; the
side-effecting `Utc::now()` calls inside `History::push` become an explicit
`now` argument.
-/

/-- `ClipboardEntry` from `src/history.rs`: `id: u64`, `content: String`,
`created_at: DateTime<Utc>`. -/
structure ClipboardEntry where
  id : Nat
  content : String
  created_at : Nat
deriving DecidableEq, Repr

/-- `History` from `src/history.rs`: the entry list (index 0 = most recent),
the bound `max_size`, and the id counter `next_id` (serde-defaulted on
deserialization). -/
structure History where
  entries : List ClipboardEntry
  max_size : Nat
  next_id : Nat
deriving DecidableEq, Repr

/-- `History::new(max_size)`. -/
def History.new (max_size : Nat) : History :=
  { entries := [], max_size := max_size, next_id := 1 }

/-- The combination of `self.entries.iter().position(p)` followed by
`self.entries.remove(pos)` in `History::push`: locate the first entry
satisfying `P` and return it together with the list with that occurrence
removed; `none` when no entry matches. -/
def removeFirst (P : α → Bool) : List α → Option (α × List α)
  | [] => none
  | x :: xs =>
    if P x then some (x, xs)
    else
      match removeFirst P xs with
      | some (y, rest) => some (y, x :: rest)
      | none => none

/-- The body of `History::push` after the most-recent-duplicate guard:
the duplicate scan with move-to-front, else allocation of a new entry at the
front followed by the `truncate(max_size)` trim. -/
def History.pushRest (h : History) (content : String) (now : Nat) : Bool × History :=
  match removeFirst (fun e => e.content == content) h.entries with
  | some (entry, rest) =>
      (true, { h with entries := { entry with created_at := now } :: rest })
  | none =>
      let entry : ClipboardEntry := { id := h.next_id, content := content, created_at := now }
      let inserted := entry :: h.entries
      let trimmed := if h.max_size < inserted.length then inserted.take h.max_size else inserted
      (true, { entries := trimmed, max_size := h.max_size, next_id := h.next_id + 1 })

/-- `History::push(&mut self, content) -> bool`, with the mutation made
explicit: returns the `bool` together with the updated store.  `now` stands
for the value of `Utc::now()` during this call. -/
def History.push (h : History) (content : String) (now : Nat) : Bool × History :=
  match h.entries.head? with
  | some latest =>
      if latest.content == content then (false, h)
      else h.pushRest content now
  | none => h.pushRest content now

/-- `History::get_by_id`. -/
def History.get_by_id (h : History) (id : Nat) : Option ClipboardEntry :=
  h.entries.find? (fun e => e.id == id)

/-- Run a sequence of pushes; each operation is a `(content, now)` pair.
Stores reachable from `History.new m` are exactly the `pushAll (History.new m) ops`. -/
def pushAll (h : History) : List (String × Nat) → History
  | [] => h
  | (c, t) :: ops => pushAll (h.push c t).2 ops

/-! ### Basic facts about `removeFirst` and `push` -/

theorem removeFirst_perm (P : α → Bool) :
    ∀ {l : List α} {x : α} {rest : List α},
      removeFirst P l = some (x, rest) → l.Perm (x :: rest)
  | [], _, _, h => by simp [removeFirst] at h
  | a :: xs, x, rest, h => by
    by_cases hPa : P a
    · simp [removeFirst, hPa] at h
      obtain ⟨rfl, rfl⟩ := h
      exact List.Perm.refl _
    · simp only [removeFirst, hPa, if_false] at h
      cases hrec : removeFirst P xs with
      | none => simp [hrec] at h
      | some p =>
        obtain ⟨y, r⟩ := p
        simp [hrec] at h
        obtain ⟨rfl, rfl⟩ := h
        exact ((removeFirst_perm P hrec).cons a).trans (List.Perm.swap _ _ _)

theorem removeFirst_none (P : α → Bool) :
    ∀ {l : List α}, removeFirst P l = none → ∀ x ∈ l, P x = false
  | [], _, x, hx => by simp at hx
  | a :: xs, h, x, hx => by
    by_cases hPa : P a
    · simp [removeFirst, hPa] at h
    · simp only [removeFirst, hPa, if_false] at h
      cases hrec : removeFirst P xs with
      | none =>
        rcases List.mem_cons.mp hx with rfl | hmem
        · exact Bool.of_not_eq_true hPa
        · exact removeFirst_none P hrec x hmem
      | some p => obtain ⟨y, r⟩ := p; simp [hrec] at h

/-- `push` always reports a change once the most-recent-duplicate guard has
been passed: both the move-to-front branch and the new-entry branch
return `true`. -/
theorem pushRest_fst (h : History) (c : String) (t : Nat) :
    (h.pushRest c t).1 = true := by
  unfold History.pushRest
  cases removeFirst (fun e => e.content == c) h.entries with
  | none => simp
  | some p => obtain ⟨e, rest⟩ := p; simp

/-- Shared helper: a push whose content equals the most recent entry's
content is the early-return no-op of `History::push`. -/
theorem push_of_head_content_eq (h : History) (c : String) (t : Nat)
    (hhead : h.entries.head?.map (fun e => e.content) = some c) :
    h.push c t = (false, h) := by
  cases hl : h.entries.head? with
  | none => simp [hl] at hhead
  | some latest =>
    have hc : latest.content = c := by simpa [hl] using hhead
    simp [History.push, hl, hc]

/-! ### The store invariants: bounded length and deduplicated contents -/

/-- The two `HistoryStore` invariants from the spec: the entry count never
exceeds `max_size`, and contents are pairwise distinct. -/
def History.Inv (h : History) : Prop :=
  h.entries.length ≤ h.max_size ∧ (h.entries.map (fun e => e.content)).Nodup

theorem pushRest_inv (h : History) (c : String) (t : Nat) (hI : h.Inv) :
    (h.pushRest c t).2.Inv := by
  obtain ⟨hlen, hnd⟩ := hI
  unfold History.pushRest
  cases hrf : removeFirst (fun e => e.content == c) h.entries with
  | some p =>
    obtain ⟨e, rest⟩ := p
    have hperm : h.entries.Perm (e :: rest) := removeFirst_perm _ hrf
    have hlen2 : h.entries.length = rest.length + 1 := by simpa using hperm.length_eq
    constructor
    · show ({ e with created_at := t } :: rest).length ≤ h.max_size
      simp only [List.length_cons]
      omega
    · show (({ e with created_at := t } :: rest).map (fun e => e.content)).Nodup
      have hpm : (h.entries.map (fun e => e.content)).Perm
          ((e :: rest).map (fun e => e.content)) := hperm.map _
      simpa using hpm.nodup_iff.mp hnd
  | none =>
    have hno := removeFirst_none _ hrf
    have hcnot : c ∉ h.entries.map (fun e => e.content) := by
      intro hmem
      obtain ⟨e, he, hce⟩ := List.mem_map.mp hmem
      have := hno e he
      simp [hce] at this
    have hndins : ((({ id := h.next_id, content := c, created_at := t } : ClipboardEntry)
        :: h.entries).map (fun e => e.content)).Nodup := by
      simpa using List.nodup_cons.mpr ⟨hcnot, hnd⟩
    dsimp only
    by_cases hlt : h.max_size <
        (({ id := h.next_id, content := c, created_at := t } : ClipboardEntry)
          :: h.entries).length
    · simp only [hlt, if_true]
      constructor
      · simpa [List.length_take] using Nat.min_le_left h.max_size _
      · rw [List.map_take]
        exact hndins.sublist (List.take_sublist _ _)
    · simp only [hlt, if_false]
      constructor
      · simp only [List.length_cons]
        simp only [List.length_cons] at hlt
        omega
      · exact hndins

theorem push_inv (h : History) (c : String) (t : Nat) (hI : h.Inv) :
    (h.push c t).2.Inv := by
  unfold History.push
  cases hl : h.entries.head? with
  | none => exact pushRest_inv h c t hI
  | some latest =>
    cases hc : (latest.content == c) with
    | true => simpa [hc] using hI
    | false => simpa [hc] using pushRest_inv h c t hI

theorem pushAll_inv (h : History) (ops : List (String × Nat)) (hI : h.Inv) :
    (pushAll h ops).Inv := by
  induction ops generalizing h with
  | nil => exact hI
  | cons op ops ih =>
    obtain ⟨c, t⟩ := op
    exact ih _ (push_inv h c t hI)

/-- C3: every store reachable from `History.new max_size` by pushes satisfies
`entries.length <= max_size` and has pairwise-distinct contents after each
push completes; both predicates are preserved by every push. -/
theorem push_preserves_bound_and_dedup (m : Nat) (ops : List (String × Nat)) :
    (pushAll (History.new m) ops).entries.length ≤ (pushAll (History.new m) ops).max_size ∧
    ((pushAll (History.new m) ops).entries.map (fun e => e.content)).Nodup :=
  pushAll_inv (History.new m) ops ⟨by simp [History.new], by simp [History.new]⟩

/-- C7: pushing the content of the current most recent entry of a non-empty
store returns `false` and leaves the store exactly as it was. -/
theorem push_duplicate_of_most_recent_noop (h : History) (c : String) (t : Nat)
    (hne : h.entries ≠ [])
    (hc : h.entries.head?.map (fun e => e.content) = some c) :
    h.push c t = (false, h) :=
  push_of_head_content_eq h c t hc

/-- Witness for C7 at a concrete store: pushing "hello" twice in a row. -/
theorem push_duplicate_of_most_recent_noop_witness :
    ((History.new 100).push "hello" 1).2.push "hello" 2
      = (false, ((History.new 100).push "hello" 1).2) :=
  push_duplicate_of_most_recent_noop _ "hello" 2 (by decide) (by decide)

/-- C1 counterexample: `History::push` has no empty-content guard.  On the
empty store with `max_size = 100`, pushing the empty string returns `true`
and creates an entry whose content is the empty string. -/
theorem push_empty_string_accepted_cex :
    ((History.new 100).push "" 0).1 = true ∧
    ((History.new 100).push "" 0).2 ≠ History.new 100 ∧
    ((History.new 100).push "" 0).2.entries.map (fun e => e.content) = [""] := by
  decide

/-- C1 amended: the empty string receives no special treatment from
`History::push`.  A push of `""` is a rejected no-op exactly when the most
recent entry's content is already `""`; otherwise (in particular on the
empty store) it changes the store and returns `true`. -/
theorem push_empty_string_amended (h : History) (t : Nat) :
    (h.entries.head?.map (fun e => e.content) = some "" → h.push "" t = (false, h)) ∧
    (h.entries.head?.map (fun e => e.content) ≠ some "" → (h.push "" t).1 = true) := by
  constructor
  · exact fun hh => push_of_head_content_eq h "" t hh
  · intro hh
    unfold History.push
    cases hl : h.entries.head? with
    | none => exact pushRest_fst h "" t
    | some latest =>
      have hc : ¬ latest.content = "" := fun he => hh (by simp [hl, he])
      simp only [hc, beq_iff_eq, if_false]
      exact pushRest_fst h "" t

/-- Witness for C1's amended claim: on the empty store, pushing `""`
returns `true`. -/
theorem push_empty_string_amended_witness :
    ((History.new 100).push "" 0).1 = true :=
  (push_empty_string_amended (History.new 100) 0).2 (by decide)

/-! ### Move-to-front -/

/-- `removeFirst` computed from the first matching index: it removes exactly
the entry at `l.findIdx P`. -/
theorem removeFirst_of_findIdx (P : α → Bool) :
    ∀ (l : List α) (i : Nat) (hi : i < l.length), l.findIdx P = i →
      removeFirst P l = some (l.get ⟨i, hi⟩, l.eraseIdx i)
  | [], i, hi, _ => by simp at hi
  | a :: xs, i, hi, hfind => by
    by_cases hPa : P a
    · have h0 : i = 0 := by
        rw [List.findIdx_cons, hPa] at hfind
        simpa using hfind.symm
      subst h0
      simp [removeFirst, hPa]
    · have hPa' : P a = false := Bool.of_not_eq_true hPa
      rw [List.findIdx_cons, hPa'] at hfind
      simp only [cond_false] at hfind
      cases i with
      | zero => omega
      | succ j =>
        have hj : xs.findIdx P = j := by omega
        have hjlt : j < xs.length := Nat.lt_of_succ_lt_succ hi
        have hrec := removeFirst_of_findIdx P xs j hjlt hj
        simp [removeFirst, hPa, hrec]

/-- C2: when `content` first occurs at position `p > 0`, `push` removes the
entry from position `p`, refreshes its `created_at`, reinserts it at
position 0 (id untouched), keeps the length and `next_id` unchanged, and
returns `true`. -/
theorem push_moves_duplicate_to_front (h : History) (c : String) (t p : Nat)
    (ep : ClipboardEntry) (hpos : 0 < p)
    (hget : h.entries[p]? = some ep) (hc : ep.content = c)
    (hfind : h.entries.findIdx (fun e => e.content == c) = p) :
    h.push c t =
      (true, { h with entries := { ep with created_at := t } :: h.entries.eraseIdx p }) ∧
    (h.push c t).2.entries.length = h.entries.length ∧
    (h.push c t).2.next_id = h.next_id := by
  obtain ⟨hp, hep⟩ := List.getElem?_eq_some_iff.mp hget
  have hrf : removeFirst (fun e => e.content == c) h.entries
      = some (ep, h.entries.eraseIdx p) := by
    have := removeFirst_of_findIdx (fun e => e.content == c) h.entries p hp hfind
    simpa [List.get_eq_getElem, hep] using this
  have hmain : h.push c t =
      (true, { h with entries := { ep with created_at := t } :: h.entries.eraseIdx p }) := by
    unfold History.push
    cases hl : h.entries.head? with
    | none =>
      have : h.entries = [] := List.head?_eq_none_iff.mp hl
      rw [this] at hp
      simp at hp
    | some latest =>
      have h0 : 0 < h.entries.length := Nat.lt_of_le_of_lt (Nat.zero_le p) hp
      have hlatest : latest = h.entries[0] := by
        rw [List.head?_eq_getElem?] at hl
        have := (List.getElem?_eq_some_iff.mp hl).2
        exact this.symm
      have hfalse : (latest.content == c) = false := by
        rw [hlatest]
        have := @List.not_of_lt_findIdx _ (fun e => e.content == c)
          h.entries 0 (by omega)
        simpa using this
      dsimp only
      rw [hfalse]
      simp only [Bool.false_eq_true, if_false]
      unfold History.pushRest
      rw [hrf]
  refine ⟨hmain, ?_, ?_⟩
  · rw [hmain]
    have := List.length_eraseIdx_of_lt hp
    simp only [List.length_cons, this]
    omega
  · rw [hmain]

/-- Witness for C2: after pushing "first", "second", "third" into an empty
store, pushing "first" again moves it to the front, giving contents
`["first", "third", "second"]` with the original ids. -/
theorem push_moves_duplicate_to_front_witness :
    ((pushAll (History.new 100) [("first", 1), ("second", 2), ("third", 3)]).push "first" 4).2.entries.map
        (fun e => (e.content, e.id)) = [("first", 1), ("third", 3), ("second", 2)] := by
  have h := push_moves_duplicate_to_front
    (pushAll (History.new 100) [("first", 1), ("second", 2), ("third", 3)]) "first" 4 2
    ⟨1, "first", 1⟩ (by decide) (by decide) (by decide) (by decide)
  rw [h.1]
  decide

/-! ### Id assignment -/

/-- `push` either leaves `next_id` alone (no-op or move-to-front) or
increments it by one (new entry). -/
theorem push_next_id (h : History) (c : String) (t : Nat) :
    (h.push c t).2.next_id = h.next_id ∨ (h.push c t).2.next_id = h.next_id + 1 := by
  unfold History.push History.pushRest
  cases h.entries.head? with
  | some latest =>
    by_cases hc : (latest.content == c : Bool)
    · simp [hc]
    · cases hrf : removeFirst (fun e => e.content == c) h.entries with
      | some p => obtain ⟨e, rest⟩ := p; simp [hc, hrf]
      | none => simp [hc, hrf]
  | none =>
    cases hrf : removeFirst (fun e => e.content == c) h.entries with
    | some p => obtain ⟨e, rest⟩ := p; simp [hrf]
    | none => simp [hrf]

/-- The ids handed to newly created entries along a sequence of pushes, in
creation order: `push` allocates `next_id` exactly when it increments it. -/
def createdIds (h : History) : List (String × Nat) → List Nat
  | [] => []
  | (c, t) :: ops =>
    if h.next_id < (h.push c t).2.next_id then
      h.next_id :: createdIds (h.push c t).2 ops
    else createdIds (h.push c t).2 ops

theorem createdIds_lb (h : History) (ops : List (String × Nat)) :
    ∀ i ∈ createdIds h ops, h.next_id ≤ i := by
  induction ops generalizing h with
  | nil => intro i hi; simp [createdIds] at hi
  | cons op ops ih =>
    obtain ⟨c, t⟩ := op
    intro i hi
    have hmono : h.next_id ≤ (h.push c t).2.next_id := by
      rcases push_next_id h c t with he | he <;> omega
    simp only [createdIds] at hi
    by_cases hlt : h.next_id < (h.push c t).2.next_id
    · rw [if_pos hlt] at hi
      rcases List.mem_cons.mp hi with rfl | hmem
      · exact Nat.le_refl _
      · exact Nat.le_trans hmono (ih _ i hmem)
    · rw [if_neg hlt] at hi
      exact Nat.le_trans hmono (ih _ i hi)

theorem createdIds_pairwise (h : History) (ops : List (String × Nat)) :
    List.Pairwise (· < ·) (createdIds h ops) := by
  induction ops generalizing h with
  | nil => simp [createdIds]
  | cons op ops ih =>
    obtain ⟨c, t⟩ := op
    simp only [createdIds]
    by_cases hlt : h.next_id < (h.push c t).2.next_id
    · rw [if_pos hlt]
      refine List.Pairwise.cons ?_ (ih _)
      intro i hi
      exact Nat.lt_of_lt_of_le hlt (createdIds_lb _ _ i hi)
    · rw [if_neg hlt]
      exact ih _

theorem pushRest_ids_below (h : History) (c : String) (t : Nat)
    (hB : ∀ e ∈ h.entries, e.id < h.next_id) :
    ∀ e ∈ (h.pushRest c t).2.entries, e.id < (h.pushRest c t).2.next_id := by
  unfold History.pushRest
  cases hrf : removeFirst (fun e => e.content == c) h.entries with
  | some p =>
    obtain ⟨e0, rest⟩ := p
    have hperm : h.entries.Perm (e0 :: rest) := removeFirst_perm _ hrf
    intro e he
    dsimp only at he ⊢
    rcases List.mem_cons.mp he with rfl | hmem
    · exact hB e0 (hperm.mem_iff.mpr (List.mem_cons_self _ _))
    · exact hB e (hperm.mem_iff.mpr (List.mem_cons_of_mem _ hmem))
  | none =>
    intro e he
    dsimp only at he ⊢
    have hmem2 : e ∈ ({ id := h.next_id, content := c, created_at := t } : ClipboardEntry)
        :: h.entries := by
      by_cases hlt : h.max_size <
          (({ id := h.next_id, content := c, created_at := t } : ClipboardEntry)
            :: h.entries).length
      · rw [if_pos hlt] at he
        exact (List.take_sublist _ _).subset he
      · rw [if_neg hlt] at he
        exact he
    rcases List.mem_cons.mp hmem2 with rfl | hmem3
    · exact Nat.lt_succ_self _
    · exact Nat.lt_succ_of_lt (hB e hmem3)

theorem push_ids_below (h : History) (c : String) (t : Nat)
    (hB : ∀ e ∈ h.entries, e.id < h.next_id) :
    ∀ e ∈ (h.push c t).2.entries, e.id < (h.push c t).2.next_id := by
  unfold History.push
  cases h.entries.head? with
  | some latest =>
    by_cases hc : (latest.content == c : Bool)
    · simpa [hc] using hB
    · simpa [hc] using pushRest_ids_below h c t hB
  | none => exact pushRest_ids_below h c t hB

theorem pushAll_ids_below (h : History) (ops : List (String × Nat))
    (hB : ∀ e ∈ h.entries, e.id < h.next_id) :
    ∀ e ∈ (pushAll h ops).entries, e.id < (pushAll h ops).next_id := by
  induction ops generalizing h with
  | nil => exact hB
  | cons op ops ih =>
    obtain ⟨c, t⟩ := op
    exact ih _ (push_ids_below h c t hB)

/-- Every entry present after a push either keeps the `(id, content)` pair
it had before the push, or is the newly created entry `(next_id, content)`:
a push never rewrites the id of an existing entry. -/
theorem push_id_content_preserved (h : History) (c : String) (t : Nat) :
    ∀ e ∈ (h.push c t).2.entries,
      (e.id, e.content) ∈ h.entries.map (fun x => (x.id, x.content)) ∨
        (e.id = h.next_id ∧ e.content = c) := by
  have hrest : ∀ e ∈ (h.pushRest c t).2.entries,
      (e.id, e.content) ∈ h.entries.map (fun x => (x.id, x.content)) ∨
        (e.id = h.next_id ∧ e.content = c) := by
    unfold History.pushRest
    cases hrf : removeFirst (fun e => e.content == c) h.entries with
    | some p =>
      obtain ⟨e0, rest⟩ := p
      have hperm : h.entries.Perm (e0 :: rest) := removeFirst_perm _ hrf
      intro e he
      dsimp only at he
      rcases List.mem_cons.mp he with rfl | hmem
      · exact Or.inl (List.mem_map.mpr
          ⟨e0, hperm.mem_iff.mpr (List.mem_cons_self _ _), rfl⟩)
      · exact Or.inl (List.mem_map.mpr
          ⟨e, hperm.mem_iff.mpr (List.mem_cons_of_mem _ hmem), rfl⟩)
    | none =>
      intro e he
      dsimp only at he
      have hmem2 : e ∈ ({ id := h.next_id, content := c, created_at := t } : ClipboardEntry)
          :: h.entries := by
        by_cases hlt : h.max_size <
            (({ id := h.next_id, content := c, created_at := t } : ClipboardEntry)
              :: h.entries).length
        · rw [if_pos hlt] at he
          exact (List.take_sublist _ _).subset he
        · rw [if_neg hlt] at he
          exact he
      rcases List.mem_cons.mp hmem2 with rfl | hmem3
      · exact Or.inr ⟨rfl, rfl⟩
      · exact Or.inl (List.mem_map.mpr ⟨e, hmem3, rfl⟩)
  unfold History.push
  cases h.entries.head? with
  | some latest =>
    by_cases hc : (latest.content == c : Bool)
    · intro e he
      simp only [hc, if_true] at he
      exact Or.inl (List.mem_map.mpr ⟨e, he, rfl⟩)
    · simpa [hc] using hrest
  | none => exact hrest

/-- C6: along any push sequence from `History.new m`, the ids assigned to
newly created entries are pairwise distinct and strictly increasing in
creation order; every stored id stays strictly below `next_id` (so no id is
ever reused); and no push ever changes the id of an existing entry. -/
theorem push_ids_monotone_and_unique (m : Nat) (ops : List (String × Nat)) :
    List.Pairwise (· < ·) (createdIds (History.new m) ops) ∧
    (∀ e ∈ (pushAll (History.new m) ops).entries,
      e.id < (pushAll (History.new m) ops).next_id) ∧
    (∀ (h : History) (c : String) (t : Nat), ∀ e ∈ (h.push c t).2.entries,
      (e.id, e.content) ∈ h.entries.map (fun x => (x.id, x.content)) ∨
        (e.id = h.next_id ∧ e.content = c)) :=
  ⟨createdIds_pairwise _ _,
   pushAll_ids_below _ _ (by intro e he; simp [History.new] at he),
   fun h c t => push_id_content_preserved h c t⟩

/-- Witness for C6: after pushing "a" then "b" into a fresh store, the
entry created second carries id 2, which is below the final `next_id`. -/
theorem push_ids_monotone_and_unique_witness :
    (⟨2, "b", 2⟩ : ClipboardEntry).id
      < (pushAll (History.new 100) [("a", 1), ("b", 2)]).next_id :=
  (push_ids_monotone_and_unique 100 [("a", 1), ("b", 2)]).2.1 ⟨2, "b", 2⟩ (by decide)

/-! ### Persistence codec -/

/-- Modelled from the spec: the serialized history document.  `src/storage.rs`
delegates the byte-level work to the external `serde_json` crate (not part of
this repository), so the codec is modelled at the level of JSON documents:
`serialize(store) -> bytes` becomes the JSON document emitted for `History`,
and parse failures of `deserialize(bytes, max_size)` become documents the
decoder rejects.  The `DateTime<Utc>` timestamp, rendered losslessly by the
external `chrono` serializer, is modelled as its numeric instant. -/
inductive Json where
  | null : Json
  | bool : Bool → Json
  | num : Int → Json
  | str : String → Json
  | arr : List Json → Json
  | obj : List (String × Json) → Json

/-- Field lookup in a JSON object, as the derived serde deserializer
performs it (first binding of the name wins). -/
def lookupField (fields : List (String × Json)) (name : String) : Option Json :=
  (fields.find? (fun p => p.1 == name)).map (fun p => p.2)

/-- Decode an unsigned machine integer (`u64` / `usize`). -/
def decodeNat : Json → Option Nat
  | Json.num n => if 0 ≤ n then some n.toNat else none
  | _ => none

def decodeString : Json → Option String
  | Json.str s => some s
  | _ => none

/-- Modelled from the spec: the document the derived `Serialize` impl emits
for a `ClipboardEntry` — an object with the three fields in declaration
order. -/
def encodeEntry (e : ClipboardEntry) : Json :=
  Json.obj [("id", Json.num e.id), ("content", Json.str e.content),
            ("created_at", Json.num e.created_at)]

/-- Modelled from the spec: the derived `Deserialize` impl for
`ClipboardEntry`: all three fields are required. -/
def decodeEntry (j : Json) : Option ClipboardEntry :=
  match j with
  | Json.obj fields => do
    let id ← lookupField fields "id" >>= decodeNat
    let content ← lookupField fields "content" >>= decodeString
    let created ← lookupField fields "created_at" >>= decodeNat
    some { id := id, content := content, created_at := created }
  | _ => none

/-- Decode a JSON array of entries, failing on the first invalid element. -/
def decodeEntryList : List Json → Option (List ClipboardEntry)
  | [] => some []
  | j :: js => do
    let e ← decodeEntry j
    let rest ← decodeEntryList js
    some (e :: rest)

/-- Modelled from the spec: the document the derived `Serialize` impl emits
for `History`. -/
def encodeHistory (h : History) : Json :=
  Json.obj [("entries", Json.arr (h.entries.map encodeEntry)),
            ("max_size", Json.num h.max_size),
            ("next_id", Json.num h.next_id)]

/-- Modelled from the spec: the derived `Deserialize` impl for `History`:
`entries` and `max_size` are required, while `next_id` carries
`#[serde(default)]` and falls back to `u64::default() = 0` when absent. -/
def decodeHistory (j : Json) : Option History :=
  match j with
  | Json.obj fields => do
    let entries ← match lookupField fields "entries" with
      | some (Json.arr items) => decodeEntryList items
      | _ => none
    let max_size ← lookupField fields "max_size" >>= decodeNat
    let next_id ← match lookupField fields "next_id" with
      | none => some 0
      | some v => decodeNat v
    some { entries := entries, max_size := max_size, next_id := next_id }
  | _ => none

/-- `storage::load(max_size)` from `src/storage.rs`, with the filesystem
made explicit: `none` stands for an unreadable or absent file, and a decoder
rejection stands for a `serde_json` parse error; both fall back to
`History::new(max_size)`. -/
def load (backing : Option Json) (max_size : Nat) : History :=
  match backing with
  | some j => (decodeHistory j).getD (History.new max_size)
  | none => History.new max_size

/-- `storage::save` from `src/storage.rs`, with the I/O stripped: the
document written to disk. -/
def save (h : History) : Json := encodeHistory h

theorem decodeEntry_encodeEntry (e : ClipboardEntry) :
    decodeEntry (encodeEntry e) = some e := by
  simp [decodeEntry, encodeEntry, lookupField, List.find?, decodeNat, decodeString]

theorem decodeEntryList_encode (l : List ClipboardEntry) :
    decodeEntryList (l.map encodeEntry) = some l := by
  induction l with
  | nil => rfl
  | cons e es ih => simp [decodeEntryList, decodeEntry_encodeEntry, ih]

theorem decodeHistory_encodeHistory (h : History) :
    decodeHistory (encodeHistory h) = some h := by
  simp [decodeHistory, encodeHistory, lookupField, List.find?,
    decodeEntryList_encode, decodeNat]

/-- C4: for any store reachable by pushes, deserializing the serialized
document restores the store exactly — entries, `max_size` and `next_id` —
regardless of the `max_size` bound the loader was configured with. -/
theorem serialize_deserialize_roundtrip (m k : Nat) (ops : List (String × Nat)) :
    load (some (save (pushAll (History.new m) ops))) k = pushAll (History.new m) ops := by
  simp [load, save, decodeHistory_encodeHistory]

/-- C5: any backing input that is not a valid serialized history document —
including absent backing — loads as the fresh empty store `History.new 100`,
with no error surfaced to the caller (`load` is total). -/
theorem load_invalid_fresh_empty (backing : Option Json)
    (hbad : ∀ j, backing = some j → decodeHistory j = none) :
    load backing 100 = History.new 100 := by
  cases backing with
  | none => rfl
  | some j => simp [load, hbad j rfl]

/-- Witness for C5: the document `null` is rejected by the decoder and
loads as the empty store with `max_size = 100`. -/
theorem load_invalid_fresh_empty_witness :
    load (some Json.null) 100 = History.new 100 :=
  load_invalid_fresh_empty (some Json.null) (by intro j hj; cases hj; rfl)

/-! ### Fuzzy search -/

/-- Modelled from the spec: the scoring walk of the fuzzy matcher.  The
matcher itself is the external `SkimMatcherV2` (the `fuzzy_matcher` crate,
not part of this repository); the spec requires a fuzzy subsequence match
that fails when the query is not a subsequence of the content and rewards
contiguous runs of matched characters.  This walk matches query characters
in order, scoring 1 per match plus a contiguity bonus. -/
def fuzzyGo : List Char → List Char → Bool → Int → Option Int
  | _, [], _, acc => some acc
  | [], _ :: _, _, _ => none
  | c :: cs, q :: qs, prevMatched, acc =>
    if c = q then fuzzyGo cs qs true (acc + (if prevMatched then 2 else 1))
    else fuzzyGo cs (q :: qs) false acc

/-- Modelled from the spec: `matcher.fuzzy_match(choice, text)` — `none`
when `text` is not a fuzzy subsequence of `choice`, otherwise a score. -/
def fuzzy_match (choice text : String) : Option Int :=
  fuzzyGo choice.toList text.toList false 0

/-- `search` from `src/fuzzy.rs`: empty query passes every entry through
with score 0 in the given order; a non-empty query keeps exactly the
matching entries and sorts them by score descending with a stable sort
(Rust's `sort_by`, a stable merge sort, modelled by `List.mergeSort`). -/
def search (query : String) (entries : List ClipboardEntry) :
    List (ClipboardEntry × Int) :=
  if query.isEmpty then
    entries.map (fun e => (e, 0))
  else
    (entries.filterMap (fun entry =>
      (fuzzy_match entry.content query).map (fun score => (entry, score)))).mergeSort
      (fun a b => decide (b.2 ≤ a.2))

/-- C8: searching with the empty query returns every entry, in the input
order, paired with score 0. -/
theorem search_empty_query_identity (entries : List ClipboardEntry) :
    search "" entries = entries.map (fun e => (e, 0)) := rfl

theorem searchLE_trans (a b c : ClipboardEntry × Int)
    (hab : decide (b.2 ≤ a.2) = true) (hbc : decide (c.2 ≤ b.2) = true) :
    decide (c.2 ≤ a.2) = true := by
  simp only [decide_eq_true_eq] at *
  omega

theorem searchLE_total (a b : ClipboardEntry × Int) :
    (decide (b.2 ≤ a.2) || decide (a.2 ≤ b.2)) = true := by
  simp only [Bool.or_eq_true, decide_eq_true_eq]
  omega

/-- C9: for every non-empty query, the scores in the search result are
non-increasing by index. -/
theorem search_scores_non_increasing (query : String) (entries : List ClipboardEntry)
    (hq : query.isEmpty = false) (i : Nat) (a b : ClipboardEntry × Int)
    (ha : (search query entries)[i]? = some a)
    (hb : (search query entries)[i + 1]? = some b) :
    b.2 ≤ a.2 := by
  have hsorted : (search query entries).Pairwise (fun a b => decide (b.2 ≤ a.2) = true) := by
    unfold search
    rw [hq]
    simp only [Bool.false_eq_true, if_false]
    exact List.sorted_mergeSort searchLE_trans searchLE_total _
  obtain ⟨hia, hae⟩ := List.getElem?_eq_some_iff.mp ha
  obtain ⟨hib, hbe⟩ := List.getElem?_eq_some_iff.mp hb
  have := List.pairwise_iff_getElem.mp hsorted i (i + 1) hia hib (Nat.lt_succ_self i)
  rw [hae, hbe] at this
  exact of_decide_eq_true this

/-- `List.mergeSort` is defined by well-founded recursion, so concrete
search results are computed through `mergeSort_of_sorted` on an
already-sorted filtered list rather than by kernel reduction. -/
theorem search_ab_concrete :
    search "ab" [⟨1, "ab", 0⟩, ⟨2, "a b", 0⟩]
      = [((⟨1, "ab", 0⟩ : ClipboardEntry), (3 : Int)),
         ((⟨2, "a b", 0⟩ : ClipboardEntry), (2 : Int))] := by
  unfold search
  rw [if_neg (by decide)]
  have hfil : ([⟨1, "ab", 0⟩, ⟨2, "a b", 0⟩] : List ClipboardEntry).filterMap
      (fun entry => (fuzzy_match entry.content "ab").map (fun score => (entry, score)))
      = [((⟨1, "ab", 0⟩ : ClipboardEntry), (3 : Int)),
         ((⟨2, "a b", 0⟩ : ClipboardEntry), (2 : Int))] := by
    decide
  rw [hfil]
  exact List.mergeSort_of_sorted (by decide)

/-- Witness for C9 on a concrete search: with query "ab" over contents
"ab" and "a b", the entry scored higher comes first. -/
theorem search_scores_non_increasing_witness :
    ((⟨2, "a b", 0⟩ : ClipboardEntry), (2 : Int)).2 ≤ ((⟨1, "ab", 0⟩ : ClipboardEntry), (3 : Int)).2 :=
  search_scores_non_increasing "ab" [⟨1, "ab", 0⟩, ⟨2, "a b", 0⟩] rfl 0
    (⟨1, "ab", 0⟩, 3) (⟨2, "a b", 0⟩, 2) (by rw [search_ab_concrete]; rfl)
    (by rw [search_ab_concrete]; rfl)

/-- Projecting the filtered search candidates back to their entries gives a
sublist of the input entry list: `filter_map` keeps input order. -/
theorem filterMap_fst_sublist (g : ClipboardEntry → Option Int) :
    ∀ entries : List ClipboardEntry,
      ((entries.filterMap (fun e => (g e).map (fun s => (e, s)))).map Prod.fst).Sublist entries
  | [] => by simp
  | e :: es => by
    rw [List.filterMap_cons]
    cases hg : g e with
    | none =>
      simp only [hg, Option.map_none']
      exact (filterMap_fst_sublist g es).cons e
    | some s =>
      simp only [hg, Option.map_some', List.map_cons]
      exact (filterMap_fst_sublist g es).cons₂ e

/-- C10: the sort behind `search` is stable, so two result elements with
equal scores occur in the same relative order as their entries did in the
input list. -/
theorem search_equal_scores_stable (query : String) (entries : List ClipboardEntry)
    (x y : ClipboardEntry × Int) (hq : query.isEmpty = false) (hxy : x.2 = y.2)
    (hsub : [x, y].Sublist (search query entries)) :
    [x.1, y.1].Sublist entries := by
  have hsearch : search query entries
      = (entries.filterMap (fun entry =>
          (fuzzy_match entry.content query).map (fun score => (entry, score)))).mergeSort
          (fun a b => decide (b.2 ≤ a.2)) := by
    unfold search
    rw [hq]
    simp only [Bool.false_eq_true, if_false]
  have hpair : ((entries.filterMap (fun entry =>
      (fuzzy_match entry.content query).map (fun score => (entry, score)))).filter
        (fun a => decide (a.2 = x.2))).Pairwise (fun a b => decide (b.2 ≤ a.2) = true) := by
    apply List.pairwise_of_forall_mem_list
    intro a ha b hb
    have ha2 : a.2 = x.2 := by simpa using (List.mem_filter.mp ha).2
    have hb2 : b.2 = x.2 := by simpa using (List.mem_filter.mp hb).2
    simp [ha2, hb2]
  have hstab : (((entries.filterMap (fun entry =>
      (fuzzy_match entry.content query).map (fun score => (entry, score)))).filter
        (fun a => decide (a.2 = x.2))).Sublist
      ((entries.filterMap (fun entry =>
          (fuzzy_match entry.content query).map (fun score => (entry, score)))).mergeSort
          (fun a b => decide (b.2 ≤ a.2)))) :=
    List.sublist_mergeSort searchLE_trans searchLE_total hpair (List.filter_sublist _)
  have hfilfil : (((entries.filterMap (fun entry =>
      (fuzzy_match entry.content query).map (fun score => (entry, score)))).filter
        (fun a => decide (a.2 = x.2))).filter (fun a => decide (a.2 = x.2)))
      = ((entries.filterMap (fun entry =>
          (fuzzy_match entry.content query).map (fun score => (entry, score)))).filter
            (fun a => decide (a.2 = x.2))) := by
    rw [List.filter_eq_self]
    intro a ha
    exact (List.mem_filter.mp ha).2
  have hsub2 := hstab.filter (fun a => decide (a.2 = x.2))
  rw [hfilfil] at hsub2
  have hlen : (((entries.filterMap (fun entry =>
      (fuzzy_match entry.content query).map (fun score => (entry, score)))).mergeSort
          (fun a b => decide (b.2 ≤ a.2))).filter (fun a => decide (a.2 = x.2))).length
      = ((entries.filterMap (fun entry =>
          (fuzzy_match entry.content query).map (fun score => (entry, score)))).filter
            (fun a => decide (a.2 = x.2))).length :=
    ((List.mergeSort_perm _ _).filter _).length_eq
  have heq := hsub2.eq_of_length hlen.symm
  rw [hsearch] at hsub
  have hxyfilter := hsub.filter (fun a => decide (a.2 = x.2))
  have hxyfilter2 : ([x, y].Sublist
      (((entries.filterMap (fun entry =>
          (fuzzy_match entry.content query).map (fun score => (entry, score)))).mergeSort
          (fun a b => decide (b.2 ≤ a.2))).filter (fun a => decide (a.2 = x.2)))) := by
    have hfxy : [x, y].filter (fun a => decide (a.2 = x.2)) = [x, y] := by
      simp [List.filter_cons, hxy]
    rwa [hfxy] at hxyfilter
  rw [← heq] at hxyfilter2
  have hxyfil := hxyfilter2.trans (List.filter_sublist _)
  have hmap := hxyfil.map Prod.fst
  simp only [List.map_cons, List.map_nil] at hmap
  exact hmap.trans (filterMap_fst_sublist (fun e => fuzzy_match e.content query) entries)

/-- A concrete tie: with query "ab", contents "ab" and "ab2" receive the
same score, and the result keeps their input order. -/
theorem search_ab_tie_concrete :
    search "ab" [⟨1, "ab", 0⟩, ⟨2, "ab2", 0⟩]
      = [((⟨1, "ab", 0⟩ : ClipboardEntry), (3 : Int)),
         ((⟨2, "ab2", 0⟩ : ClipboardEntry), (3 : Int))] := by
  unfold search
  rw [if_neg (by decide)]
  have hfil : ([⟨1, "ab", 0⟩, ⟨2, "ab2", 0⟩] : List ClipboardEntry).filterMap
      (fun entry => (fuzzy_match entry.content "ab").map (fun score => (entry, score)))
      = [((⟨1, "ab", 0⟩ : ClipboardEntry), (3 : Int)),
         ((⟨2, "ab2", 0⟩ : ClipboardEntry), (3 : Int))] := by
    decide
  rw [hfil]
  exact List.mergeSort_of_sorted (by decide)

/-- Witness for C10 at the concrete tie above: the two equal-score results
appear in their input order. -/
theorem search_equal_scores_stable_witness :
    ([(⟨1, "ab", 0⟩ : ClipboardEntry), (⟨2, "ab2", 0⟩ : ClipboardEntry)].Sublist
      [(⟨1, "ab", 0⟩ : ClipboardEntry), (⟨2, "ab2", 0⟩ : ClipboardEntry)]) :=
  search_equal_scores_stable "ab" [⟨1, "ab", 0⟩, ⟨2, "ab2", 0⟩]
    (⟨1, "ab", 0⟩, 3) (⟨2, "ab2", 0⟩, 3) rfl rfl
    (by rw [search_ab_tie_concrete])
